import Mathlib

/-!
Verification of the invopop/jsonschema repository against its
natural-language specification.

Strings are embedded as `List Char` (`Str`); byte strings as `List Nat`.
Each definition mirrors one Go function of the repository; definitions
whose Go source file is not part of the extracted sources are modelled
from the specification and marked as such in their doc comments.
-/

namespace JsonSchema

/-- Strings of the Go program, embedded as lists of characters. -/
abbrev Str := List Char

/-! ### ID operations (id.go, src/unnamed/part_005) -/

/-- Index of the last occurrence of a hash character, mirroring
`strings.LastIndex(s, "#")` as used by `ID.Base`. -/
def lastHashIndex : Str → Option Nat
  | [] => none
  | c :: rest =>
    match lastHashIndex rest with
    | some i => some (i + 1)
    | none => if c = '#' then some 0 else none

/-- Remove every trailing slash, mirroring `strings.TrimRight(s, "/")`. -/
def trimRightSlash (s : Str) : Str :=
  ((s.reverse).dropWhile (fun c => c = '/')).reverse

/-- `ID.Base`: cut the string at the last `#` (if any) and trim trailing
slashes. -/
def idBase (id : Str) : Str :=
  trimRightSlash (match lastHashIndex id with
    | some i => id.take i
    | none => id)

/-- `ID.Anchor`: append `#name` to the base identifier. -/
def idAnchor (id : Str) (name : Str) : Str :=
  idBase id ++ '#' :: name

/-- `ID.Def`: append `#/$defs/name` to the base identifier. -/
def idDef (id : Str) (name : Str) : Str :=
  idBase id ++ ("#/$defs/".toList ++ name)

/-- `ID.Add`: append a path, prepending `/` unless already present, to the
base identifier. -/
def idAdd (id : Str) (path : Str) : Str :=
  idBase id ++ (if path.head? = some '/' then path else '/' :: path)

theorem lastHashIndex_eq_none (s : Str) (h : '#' ∉ s) : lastHashIndex s = none := by
  induction s with
  | nil => rfl
  | cons c rest ih =>
    have hc : c ≠ '#' := fun hc => h (hc ▸ List.mem_cons_self c rest)
    have hr : '#' ∉ rest := fun hr => h (List.mem_cons_of_mem c hr)
    simp [lastHashIndex, ih hr, hc]

theorem lastHashIndex_append_hash (a b : Str) (hb : '#' ∉ b) :
    lastHashIndex (a ++ '#' :: b) = some a.length := by
  induction a with
  | nil =>
    simp [lastHashIndex, lastHashIndex_eq_none b hb]
  | cons c rest ih =>
    show (match lastHashIndex (rest ++ '#' :: b) with
      | some i => some (i + 1)
      | none => if c = '#' then some 0 else none) = some (c :: rest).length
    rw [ih]
    rfl

theorem mem_trimRightSlash {c : Char} {s : Str} (h : c ∈ trimRightSlash s) : c ∈ s := by
  unfold trimRightSlash at h
  rw [List.mem_reverse] at h
  have := (List.dropWhile_sublist (l := s.reverse) (p := fun c => c = '/')).subset h
  exact List.mem_reverse.mp this

theorem dropWhile_dropWhile (p : Char → Bool) (l : Str) :
    List.dropWhile p (List.dropWhile p l) = List.dropWhile p l := by
  induction l with
  | nil => rfl
  | cons c rest ih =>
    by_cases hc : p c
    · simp [List.dropWhile, hc, ih]
    · simp [List.dropWhile, hc]

theorem trimRightSlash_idem (s : Str) :
    trimRightSlash (trimRightSlash s) = trimRightSlash s := by
  unfold trimRightSlash
  rw [List.reverse_reverse, dropWhile_dropWhile]

theorem idBase_of_noHash (s : Str) (h : '#' ∉ s) : idBase s = trimRightSlash s := by
  unfold idBase
  rw [lastHashIndex_eq_none s h]

/-- A first-occurrence split: any member splits its list with a
member-free prefix. -/
theorem exists_first_split {c : Char} {l : Str} (h : c ∈ l) :
    ∃ a b, l = a ++ c :: b ∧ c ∉ a := by
  induction l with
  | nil => cases h
  | cons d rest ih =>
    by_cases hd : d = c
    · exact ⟨[], rest, by rw [hd]; rfl, List.not_mem_nil c⟩
    · have hm : c ∈ rest := by
        rcases List.mem_cons.mp h with h1 | h1
        · exact absurd h1.symm hd
        · exact h1
      obtain ⟨a, b, hl, ha⟩ := ih hm
      exact ⟨d :: a, b, by rw [hl]; rfl, by
        intro hc
        rcases List.mem_cons.mp hc with h1 | h1
        · exact hd h1.symm
        · exact ha h1⟩

theorem noHash_idBase (id : Str) (h : id.count '#' ≤ 1) : '#' ∉ idBase id := by
  by_cases hm : '#' ∈ id
  · obtain ⟨a, b, hl, ha⟩ := exists_first_split hm
    have hca : a.count '#' = 0 := List.count_eq_zero.mpr ha
    have hcb : b.count '#' = 0 := by
      have := h
      rw [hl, List.count_append, List.count_cons_self, hca] at this
      omega
    have hb : '#' ∉ b := List.count_eq_zero.mp hcb
    intro hmem
    have : '#' ∈ (id.take a.length) := by
      have hidx : lastHashIndex id = some a.length := by
        rw [hl]; exact lastHashIndex_append_hash a b hb
      unfold idBase at hmem
      rw [hidx] at hmem
      exact mem_trimRightSlash hmem
    rw [hl] at this
    rw [List.take_left] at this
    exact ha this
  · intro hmem
    rw [idBase_of_noHash id hm] at hmem
    exact hm (mem_trimRightSlash hmem)

theorem idBase_idem (id : Str) (h : id.count '#' ≤ 1) :
    idBase (idBase id) = idBase id := by
  have h1 : '#' ∉ idBase id := noHash_idBase id h
  rw [idBase_of_noHash _ h1]
  unfold idBase
  rw [trimRightSlash_idem]

theorem head?_dropWhile_not (p : Char → Bool) (l : Str) (a : Char)
    (h : (List.dropWhile p l).head? = some a) : p a = false := by
  induction l with
  | nil => simp [List.dropWhile] at h
  | cons c rest ih =>
    by_cases hc : p c
    · rw [List.dropWhile_cons_of_pos hc] at h
      exact ih h
    · rw [List.dropWhile_cons_of_neg hc] at h
      simp at h
      rw [← h]
      exact Bool.of_not_eq_true hc

theorem getLast?_concat_some (l : Str) (a : Char) : (l ++ [a]).getLast? = some a := by
  rw [List.getLast?_append_cons]
  rfl

theorem getLast?_reverse_eq (l : Str) : l.reverse.getLast? = l.head? := by
  cases l with
  | nil => rfl
  | cons c rest =>
    rw [List.reverse_cons]
    exact getLast?_concat_some _ _

theorem getLast?_trimRightSlash (s : Str) :
    (trimRightSlash s).getLast? ≠ some '/' := by
  unfold trimRightSlash
  rw [getLast?_reverse_eq]
  intro h
  have := head?_dropWhile_not (fun c => c = '/') s.reverse '/' h
  simp at this

theorem getLast?_idBase (id : Str) : (idBase id).getLast? ≠ some '/' := by
  unfold idBase
  exact getLast?_trimRightSlash _

theorem trimRightSlash_idBase (id : Str) : trimRightSlash (idBase id) = idBase id := by
  unfold idBase
  rw [trimRightSlash_idem]

theorem idBase_append_hash_general (x a : Str) (ha : '#' ∉ a) :
    idBase (x ++ '#' :: a) = trimRightSlash x := by
  unfold idBase
  rw [lastHashIndex_append_hash _ _ ha]
  show trimRightSlash (List.take x.length (x ++ '#' :: a)) = trimRightSlash x
  rw [List.take_left]

theorem idBase_append_hash (id a : Str) (ha : '#' ∉ a) :
    idBase (idBase id ++ '#' :: a) = idBase id :=
  (idBase_append_hash_general (idBase id) a ha).trans (trimRightSlash_idBase id)

/-! ### Claim C2: `ID.Base` strips the fragment -/

/-- C2 counterexample: on an identifier with two `#` characters, `ID.Base`
cuts only at the last `#`, so the result still contains `#` and `Base` is
not idempotent. -/
theorem idBase_two_hash_counterexample :
    '#' ∈ idBase ("a#b#c".toList) ∧
      idBase (idBase ("a#b#c".toList)) ≠ idBase ("a#b#c".toList) := by
  constructor
  · decide
  · decide

/-- C2 (amended): for every identifier containing at most one `#`,
`ID.Base` yields a value with no `#` character and is idempotent. -/
theorem idBase_fragment_free_of_count_le_one (id : Str) (h : id.count '#' ≤ 1) :
    '#' ∉ idBase id ∧ idBase (idBase id) = idBase id :=
  ⟨noHash_idBase id h, idBase_idem id h⟩

/-- C2 witness: the amended theorem applied to a concrete identifier with
one fragment. -/
theorem idBase_fragment_free_witness :
    ("https://invopop.com/schema#Name".toList.count '#' ≤ 1) ∧
      ('#' ∉ idBase ("https://invopop.com/schema#Name".toList) ∧
        idBase (idBase ("https://invopop.com/schema#Name".toList)) =
          idBase ("https://invopop.com/schema#Name".toList)) :=
  ⟨by decide, idBase_fragment_free_of_count_le_one _ (by decide)⟩

/-! ### Claim C3: `ID.Add` appends a path to the base -/

/-- C3: `ID.Add` returns the fragment-free base of the identifier followed
by exactly one `/` and the path (a leading slash of the path is not
doubled), and the `id_test.go` vector holds. -/
theorem idAdd_eq_base_slash_path :
    (∀ id p, idAdd id p =
        idBase id ++ '/' :: (if p.head? = some '/' then p.tail else p)) ∧
      idAdd ("https://invopop.com/schema".toList) ("user".toList) =
        "https://invopop.com/schema/user".toList := by
  constructor
  · intro id p
    unfold idAdd
    by_cases h : p.head? = some '/'
    · rw [if_pos h, if_pos h]
      cases p with
      | nil => simp at h
      | cons c rest =>
        simp only [List.head?_cons, Option.some.injEq] at h
        rw [h]
        rfl
    · rw [if_neg h, if_neg h]
  · decide

/-! ### Claim C4: `ID.Anchor` and `ID.Def` replace the fragment -/

/-- C4 counterexample: when the first anchor name itself contains `#`,
re-anchoring keeps part of the old name, so the replacement law fails. -/
theorem idAnchor_replace_counterexample :
    idAnchor (idAnchor ("a".toList) ("x#y".toList)) ("z".toList) ≠
        idAnchor ("a".toList) ("z".toList) ∧
      idAnchor (idAnchor ("a".toList) ("x#y".toList)) ("z".toList) =
        "a#x#z".toList := by
  constructor
  · decide
  · decide

/-- C4 (amended): `Anchor id a` equals `Base id ++ "#" ++ a` for all names,
and for anchor or definition names containing no `#`, a second application
keeps only the last name. -/
theorem idAnchor_def_replace (id a b : Str) (ha : '#' ∉ a) :
    idAnchor id a = idBase id ++ '#' :: a ∧
      idAnchor (idAnchor id a) b = idAnchor id b ∧
      idDef (idDef id a) b = idDef id b := by
  refine ⟨rfl, ?_, ?_⟩
  · unfold idAnchor
    rw [idBase_append_hash id a ha]
  · unfold idDef
    have hsplit : ("#/$defs/".toList ++ a) = '#' :: ("/$defs/".toList ++ a) := rfl
    have hnotin : '#' ∉ ("/$defs/".toList ++ a) := by
      intro hmem
      rcases List.mem_append.mp hmem with h1 | h1
      · revert h1; decide
      · exact ha h1
    rw [hsplit, ← List.append_assoc, idBase_append_hash id _ hnotin,
      List.append_assoc]

/-- C4 witness: the amended claim at the `id_test.go` inputs: anchoring
with `Name` and then `Title` keeps only `Title`. -/
theorem idAnchor_def_replace_witness :
    ('#' ∉ "Name".toList) ∧
      idAnchor (idAnchor ("https://invopop.com/schema/user".toList)
          ("Name".toList)) ("Title".toList) =
        idAnchor ("https://invopop.com/schema/user".toList) ("Title".toList) :=
  ⟨by decide,
    (idAnchor_def_replace ("https://invopop.com/schema/user".toList)
      ("Name".toList) ("Title".toList) (by decide)).2.1⟩

/-! ### Claim C10: `ID.Base` trims trailing slashes, so no doubled separator -/

/-- C10: the base of any identifier never ends in `/`, so `Add`, `Anchor`
and `Def` place exactly one separator between the base and the appended
part; on an identifier ending in several slashes, `Add` yields a single
`/` before the path. -/
theorem idBase_no_trailing_slash :
    (∀ id, (idBase id).getLast? ≠ some '/') ∧
      (∀ id p, p.head? ≠ some '/' → idAdd id p = idBase id ++ '/' :: p) ∧
      (∀ id a, idAnchor id a = idBase id ++ '#' :: a) ∧
      (∀ id n, idDef id n = idBase id ++ '#' :: ("/$defs/".toList ++ n)) ∧
      idAdd ("https://invopop.com/schema///".toList) ("user".toList) =
        "https://invopop.com/schema/user".toList := by
  refine ⟨getLast?_idBase, ?_, fun id a => rfl, fun id n => rfl, by decide⟩
  intro id p h
  unfold idAdd
  rw [if_neg h]

/-- C10 witness: the quantified parts applied at a concrete identifier
that ends in a slash. -/
theorem idBase_no_trailing_slash_witness :
    (("user".toList : Str).head? ≠ some '/') ∧
      idAdd ("https://invopop.com/schema/".toList) ("user".toList) =
        idBase ("https://invopop.com/schema/".toList) ++ '/' :: "user".toList :=
  ⟨by decide,
    idBase_no_trailing_slash.2.1 ("https://invopop.com/schema/".toList)
      ("user".toList) (by decide)⟩

/-! ### Tag splitting (reflect.go) -/

/-- Split a string at every comma, mirroring `strings.Split(s, ",")`. -/
def splitComma : Str → List Str
  | [] => [[]]
  | c :: rest =>
    if c = ',' then [] :: splitComma rest
    else
      match splitComma rest with
      | [] => [[c]]
      | p :: ps => (c :: p) :: ps

/-- Rejoin comma-separated pieces whose accumulated predecessor ends in a
backslash, consuming that backslash and restoring the comma. -/
def mergeBackslash (acc : Str) : List Str → List Str
  | [] => [acc]
  | p :: rest =>
    if acc.getLast? = some '\\' then
      mergeBackslash (acc.dropLast ++ ',' :: p) rest
    else acc :: mergeBackslash p rest

/-- Modelled from the spec: the tag splitter `splitOnUnescapedCommas` of
`reflect.go` is not among the extracted sources; its behavior is fixed by
the test vectors of `TestSplitOnUnescapedCommas` (src/unnamed/part_000).
The string is split at every comma and a piece is rejoined to its
predecessor, consuming the predecessor's final backslash, whenever the
predecessor ends in a backslash. -/
def splitOnUnescapedCommas (s : Str) : List Str :=
  match splitComma s with
  | [] => [s]
  | p :: rest => mergeBackslash p rest

/-- Push a character onto the current (first) directive of an output list. -/
def consCurrent (c : Char) : List Str → List Str
  | [] => [[c]]
  | p :: ps => (c :: p) :: ps

/-- The escaping convention exactly as the spec words it: scanning left to
right, a backslash immediately followed by a comma is consumed and yields
a literal comma, a backslash immediately followed by another backslash is
consumed and yields a literal backslash, every other backslash is literal,
and unescaped commas separate directives. -/
def splitSpecConvention : Str → List Str
  | [] => [[]]
  | '\\' :: ',' :: rest => consCurrent ',' (splitSpecConvention rest)
  | '\\' :: '\\' :: rest => consCurrent '\\' (splitSpecConvention rest)
  | ',' :: rest => [] :: splitSpecConvention rest
  | c :: rest => consCurrent c (splitSpecConvention rest)

theorem splitComma_ne_nil (s : Str) : splitComma s ≠ [] := by
  cases s with
  | nil => simp [splitComma]
  | cons c rest =>
    by_cases hc : c = ','
    · simp [splitComma, hc]
    · simp only [splitComma, if_neg hc]
      cases splitComma rest with
      | nil => simp
      | cons p ps => simp

theorem splitComma_no_comma (s : Str) (h : ',' ∉ s) : splitComma s = [s] := by
  induction s with
  | nil => rfl
  | cons c rest ih =>
    have hc : c ≠ ',' := fun hc => h (hc ▸ List.mem_cons_self c rest)
    have hr : ',' ∉ rest := fun hr => h (List.mem_cons_of_mem c hr)
    simp only [splitComma, if_neg hc, ih hr]

/-! ### Claim C1: the tag splitter -/

/-- C1 counterexample: on the test vector `hello,no\\,split` the splitter
(as fixed by its own test) keeps the first backslash and merges the comma
into `no\,split`, whereas the spec's stated convention, which consumes the
escape in `\\`, leaves the comma unescaped and splits into three pieces.
The convention clause of the claim therefore contradicts its test-vector
clause. -/
theorem splitOnUnescapedCommas_counterexample :
    splitOnUnescapedCommas ("hello,no\\\\,split".toList) =
        ["hello".toList, "no\\,split".toList] ∧
      splitSpecConvention ("hello,no\\\\,split".toList) =
        ["hello".toList, "no\\".toList, "split".toList] ∧
      splitSpecConvention ("hello,no\\\\,split".toList) ≠
        splitOnUnescapedCommas ("hello,no\\\\,split".toList) :=
  ⟨by decide, by decide, by decide⟩

/-- C1 (amended): the splitter consumes a backslash only when it
immediately precedes a comma, yielding a literal comma that joins the two
adjacent pieces; every other backslash, including one preceding another
backslash, is kept literally. Every input with no commas yields a
one-element list containing the input unchanged, empty directives from a
leading, doubled, or trailing comma are preserved, and the four test
vectors of the spec hold. -/
theorem splitOnUnescapedCommas_spec :
    splitOnUnescapedCommas ("Hello,this,is\\,a\\,string,haha".toList) =
        ["Hello".toList, "this".toList, "is,a,string".toList, "haha".toList] ∧
      splitOnUnescapedCommas ("hello,no\\\\,split".toList) =
        ["hello".toList, "no\\,split".toList] ∧
      splitOnUnescapedCommas ("string without commas".toList) =
        ["string without commas".toList] ∧
      splitOnUnescapedCommas ("ünicode,𐂄,Ж\\,П,ᠳ".toList) =
        ["ünicode".toList, "𐂄".toList, "Ж,П".toList, "ᠳ".toList] ∧
      splitOnUnescapedCommas ("empty,,tag".toList) =
        ["empty".toList, [], "tag".toList] ∧
      (∀ s : Str, ',' ∉ s → splitOnUnescapedCommas s = [s]) ∧
      (∀ s : Str, splitOnUnescapedCommas (',' :: s) =
        [] :: splitOnUnescapedCommas s) := by
  refine ⟨by decide, by decide, by decide, by decide, by decide, ?_, ?_⟩
  · intro s h
    unfold splitOnUnescapedCommas
    rw [splitComma_no_comma s h]
    rfl
  · intro s
    unfold splitOnUnescapedCommas
    have hstep : splitComma (',' :: s) = [] :: splitComma s := by
      simp [splitComma]
    rw [hstep]
    cases hsc : splitComma s with
    | nil => exact absurd hsc (splitComma_ne_nil s)
    | cons p ps =>
      show mergeBackslash [] (p :: ps) = [] :: mergeBackslash p ps
      rfl

/-- C1 witness: the no-comma clause of the amended theorem at a concrete
input. -/
theorem splitOnUnescapedCommas_spec_witness :
    (',' ∉ "required".toList) ∧
      splitOnUnescapedCommas ("required".toList) = ["required".toList] :=
  ⟨by decide, splitOnUnescapedCommas_spec.2.2.2.2.2.1 ("required".toList) (by decide)⟩

/-! ### JSON pointer escaping (pointer.go) -/

/-- Byte strings, for `JSONPointer`, which operates on the bytes of a Go
string. -/
abbrev Bytes := List Nat

/-- Replace every occurrence of a single byte by a byte sequence,
mirroring `strings.ReplaceAll` for a one-byte pattern. -/
def replaceAllByte (pat : Nat) (rep : Bytes) (s : Bytes) : Bytes :=
  s.flatMap (fun c => if c = pat then rep else [c])

/-- Bytes Go's `url.PathEscape` leaves unescaped in a path segment:
alphanumerics, the marks `-` `_` `.` `~`, and `$` `&` `+` `:` `=` `@`. -/
def allowedInPathSegment (b : Nat) : Bool :=
  decide (97 ≤ b ∧ b ≤ 122) || decide (65 ≤ b ∧ b ≤ 90) ||
    decide (48 ≤ b ∧ b ≤ 57) ||
    decide (b = 45 ∨ b = 95 ∨ b = 46 ∨ b = 126 ∨ b = 36 ∨ b = 38 ∨
      b = 43 ∨ b = 58 ∨ b = 61 ∨ b = 64)

/-- Upper-case hexadecimal digit byte for a value below 16. -/
def hexDigitU (n : Nat) : Nat :=
  if n < 10 then 48 + n else 55 + n

/-- Escape one byte as `url.PathEscape` does: allowed bytes pass through,
all others become a percent sign and two upper-case hex digits. -/
def pathEscChar (b : Nat) : Bytes :=
  if allowedInPathSegment b then [b]
  else [37, hexDigitU (b / 16), hexDigitU (b % 16)]

/-- `url.PathEscape` over a byte string. -/
def pathEscape (s : Bytes) : Bytes := s.flatMap pathEscChar

/-- `JSONPointer` (pointer.go): replace `~` by `~0`, then `/` by `~1`,
then percent-escape as a URL path segment. The byte values are 126 `~`,
47 `/`, 48 `0`, 49 `1`. -/
def JSONPointer (path : Bytes) : Bytes :=
  pathEscape (replaceAllByte 47 [126, 49] (replaceAllByte 126 [126, 48] path))

/-- Combined effect of the two replacement passes on one byte. -/
def jsonEscChar (b : Nat) : Bytes :=
  if b = 126 then [126, 48] else if b = 47 then [126, 49] else [b]

/-- Value of an upper-case hexadecimal digit byte. -/
def unhexDigit (c : Nat) : Nat := if c < 58 then c - 48 else c - 55

/-- Inverse of `pathEscape` on its image. -/
def pathUnescape : Bytes → Bytes
  | [] => []
  | c :: rest =>
    if c = 37 then
      match rest with
      | h1 :: h2 :: rest2 => (16 * unhexDigit h1 + unhexDigit h2) :: pathUnescape rest2
      | other => c :: other
    else c :: pathUnescape rest

/-- Inverse of the `~`/`/` replacement passes on their image. -/
def jsonUnescape : Bytes → Bytes
  | [] => []
  | c :: rest =>
    if c = 126 then
      match rest with
      | 48 :: rest2 => 126 :: jsonUnescape rest2
      | 49 :: rest2 => 47 :: jsonUnescape rest2
      | other => c :: other
    else c :: jsonUnescape rest

theorem replaceAll_pair_eq_flatMap (s : Bytes) :
    replaceAllByte 47 [126, 49] (replaceAllByte 126 [126, 48] s) =
      s.flatMap jsonEscChar := by
  induction s with
  | nil => rfl
  | cons b rest ih =>
    unfold replaceAllByte at ih ⊢
    rw [List.flatMap_cons, List.flatMap_append, ih, List.flatMap_cons]
    congr 1
    by_cases h126 : b = 126
    · subst h126
      decide
    · by_cases h47 : b = 47
      · subst h47
        decide
      · rw [if_neg h126, jsonEscChar, if_neg h126, if_neg h47]
        show [b].flatMap (fun c => if c = 47 then [126, 49] else [c]) = [b]
        rw [List.flatMap_cons, if_neg h47]
        rfl

theorem unhex_hex (n : Nat) (h : n < 16) : unhexDigit (hexDigitU n) = n := by
  interval_cases n <;> decide

theorem unhex_hex_byte (b : Nat) (h : b < 256) :
    16 * unhexDigit (hexDigitU (b / 16)) + unhexDigit (hexDigitU (b % 16)) = b := by
  have h1 : b / 16 < 16 := by omega
  have h2 : b % 16 < 16 := Nat.mod_lt b (by norm_num)
  rw [unhex_hex _ h1, unhex_hex _ h2]
  omega

theorem allowed_ne_37 (b : Nat) (h : allowedInPathSegment b = true) : b ≠ 37 := by
  intro hb
  subst hb
  revert h
  decide

theorem pathUnescape_escape (s : Bytes) (h : ∀ b ∈ s, b < 256) :
    pathUnescape (pathEscape s) = s := by
  induction s with
  | nil => rfl
  | cons b rest ih =>
    have hb : b < 256 := h b (List.mem_cons_self b rest)
    have hrest : ∀ x ∈ rest, x < 256 := fun x hx => h x (List.mem_cons_of_mem b hx)
    unfold pathEscape
    rw [List.flatMap_cons]
    by_cases hall : allowedInPathSegment b = true
    · rw [pathEscChar, if_pos hall]
      show pathUnescape (b :: rest.flatMap pathEscChar) = b :: rest
      unfold pathUnescape
      rw [if_neg (allowed_ne_37 b hall)]
      rw [show rest.flatMap pathEscChar = pathEscape rest from rfl, ih hrest]
    · rw [pathEscChar, if_neg hall]
      show pathUnescape (37 :: hexDigitU (b / 16) :: hexDigitU (b % 16) ::
        rest.flatMap pathEscChar) = b :: rest
      unfold pathUnescape
      rw [if_pos rfl]
      show (16 * unhexDigit (hexDigitU (b / 16)) + unhexDigit (hexDigitU (b % 16))) ::
          pathUnescape (pathEscape rest) = b :: rest
      rw [ih hrest, unhex_hex_byte b hb]

theorem jsonUnescape_escape (s : Bytes) :
    jsonUnescape (s.flatMap jsonEscChar) = s := by
  induction s with
  | nil => rfl
  | cons b rest ih =>
    rw [List.flatMap_cons]
    by_cases h126 : b = 126
    · subst h126
      rw [jsonEscChar, if_pos rfl]
      show jsonUnescape (126 :: 48 :: rest.flatMap jsonEscChar) = 126 :: rest
      unfold jsonUnescape
      rw [if_pos rfl]
      show 126 :: jsonUnescape (rest.flatMap jsonEscChar) = 126 :: rest
      rw [ih]
    · by_cases h47 : b = 47
      · subst h47
        rw [jsonEscChar, if_neg (by decide), if_pos rfl]
        show jsonUnescape (126 :: 49 :: rest.flatMap jsonEscChar) = 47 :: rest
        unfold jsonUnescape
        rw [if_pos rfl]
        show 47 :: jsonUnescape (rest.flatMap jsonEscChar) = 47 :: rest
        rw [ih]
      · rw [jsonEscChar, if_neg h126, if_neg h47]
        show jsonUnescape (b :: rest.flatMap jsonEscChar) = b :: rest
        unfold jsonUnescape
        rw [if_neg h126, ih]

theorem jsonEscChar_lt_256 (b : Nat) (h : b < 256) : ∀ x ∈ jsonEscChar b, x < 256 := by
  intro x hx
  unfold jsonEscChar at hx
  by_cases h126 : b = 126
  · rw [if_pos h126] at hx
    simp only [List.mem_cons, List.not_mem_nil, or_false] at hx
    rcases hx with rfl | rfl <;> omega
  · rw [if_neg h126] at hx
    by_cases h47 : b = 47
    · rw [if_pos h47] at hx
      simp only [List.mem_cons, List.not_mem_nil, or_false] at hx
      rcases hx with rfl | rfl <;> omega
    · rw [if_neg h47] at hx
      simp only [List.mem_cons, List.not_mem_nil, or_false] at hx
      subst hx
      exact h

theorem hexDigitU_ne_47 (n : Nat) : hexDigitU n ≠ 47 := by
  unfold hexDigitU
  by_cases h : n < 10
  · rw [if_pos h]; omega
  · rw [if_neg h]; omega

theorem no_slash_pathEscChar (b x : Nat) (hx : x ∈ pathEscChar b) : x ≠ 47 := by
  unfold pathEscChar at hx
  by_cases hall : allowedInPathSegment b = true
  · rw [if_pos hall] at hx
    simp only [List.mem_cons, List.not_mem_nil, or_false] at hx
    subst hx
    intro hc
    subst hc
    revert hall
    decide
  · rw [if_neg hall] at hx
    simp only [List.mem_cons, List.not_mem_nil, or_false] at hx
    rcases hx with rfl | rfl | rfl
    · omega
    · exact hexDigitU_ne_47 _
    · exact hexDigitU_ne_47 _

/-! ### Claim C8: `JSONPointer` is injective and slash-free -/

/-- C8: for byte strings, `JSONPointer` is injective (the `~`/`/`
replacement followed by path escaping is reversible) and its output never
contains a literal `/` byte (47). -/
theorem JSONPointer_injective (p1 p2 : Bytes)
    (h1 : ∀ b ∈ p1, b < 256) (h2 : ∀ b ∈ p2, b < 256) :
    (JSONPointer p1 = JSONPointer p2 → p1 = p2) ∧
      (47 ∉ JSONPointer p1) := by
  constructor
  · intro heq
    unfold JSONPointer at heq
    rw [replaceAll_pair_eq_flatMap, replaceAll_pair_eq_flatMap] at heq
    have hb1 : ∀ b ∈ p1.flatMap jsonEscChar, b < 256 := by
      intro b hb
      obtain ⟨a, ha, hmem⟩ := List.mem_flatMap.mp hb
      exact jsonEscChar_lt_256 a (h1 a ha) b hmem
    have hb2 : ∀ b ∈ p2.flatMap jsonEscChar, b < 256 := by
      intro b hb
      obtain ⟨a, ha, hmem⟩ := List.mem_flatMap.mp hb
      exact jsonEscChar_lt_256 a (h2 a ha) b hmem
    have hmid : p1.flatMap jsonEscChar = p2.flatMap jsonEscChar := by
      have e1 := pathUnescape_escape (p1.flatMap jsonEscChar) hb1
      have e2 := pathUnescape_escape (p2.flatMap jsonEscChar) hb2
      rw [← e1, ← e2, heq]
    have := jsonUnescape_escape p1
    rw [← this, hmid, jsonUnescape_escape p2]
  · intro hmem
    unfold JSONPointer at hmem
    unfold pathEscape at hmem
    obtain ⟨a, _, hmem2⟩ := List.mem_flatMap.mp hmem
    exact no_slash_pathEscChar a 47 hmem2 rfl

/-- C8 witness: the theorem applied to the bytes of `a/b~` against
themselves, plus the slash-freeness of the escaped output. -/
theorem JSONPointer_injective_witness :
    ((∀ b ∈ ([97, 47, 98, 126] : Bytes), b < 256) ∧
        ([97, 47, 98, 126] : Bytes) = [97, 47, 98, 126]) ∧
      47 ∉ JSONPointer [97, 47, 98, 126] :=
  ⟨⟨by decide, (JSONPointer_injective [97, 47, 98, 126] [97, 47, 98, 126]
      (by decide) (by decide)).1 rfl⟩,
    (JSONPointer_injective [97, 47, 98, 126] [97, 47, 98, 126]
      (by decide) (by decide)).2⟩

/-! ### Identifier validation (id.go, ID.Validate — modelled) -/

/-- Split a string at the first occurrence of `://` into scheme and
remainder; `none` when the marker is absent. -/
def splitSchemeMarker : Str → Option (Str × Str)
  | ':' :: '/' :: '/' :: rest => some ([], rest)
  | c :: rest =>
    match splitSchemeMarker rest with
    | some (a, b) => some (c :: a, b)
    | none => none
  | [] => none

/-- Modelled from the spec: `ID.Validate` of id.go is not among the
extracted sources. Per the spec, validation parses the identifier as a
URL and checks the scheme, hostname plausibility, and path presence,
surfacing a descriptive error naming the failed check; the error
messages are chosen to satisfy the substring assertions of
`TestIDValidation` (src/id_test.go). -/
def idValidate (id : Str) : Except Str Unit :=
  if id.any (fun c => c.toNat < 32) then
    .error ("invalid URL: control character".toList)
  else
    match splitSchemeMarker id with
    | none => .error ("missing hostname".toList)
    | some (scheme, rest) =>
      let host := rest.takeWhile (fun c => c != '/')
      let path := rest.dropWhile (fun c => c != '/')
      if host = [] then .error ("missing hostname".toList)
      else if '.' ∉ host then .error ("hostname does not look valid".toList)
      else if path = [] then .error ("path is expected".toList)
      else if scheme = "http".toList ∨ scheme = "https".toList then .ok ()
      else .error ("unexpected schema".toList)

/-! ### Claim C7: identifier validation -/

/-- C7: validation succeeds exactly when the identifier parses as a URL
(no control characters, a scheme marker present) with an accepted scheme,
a plausible hostname, and a non-empty path; every identifier failing one
of the checks gets an error naming that check, as witnessed by the five
`TestIDValidation` vectors, stated after the equivalence. -/
theorem idValidate_ok_iff :
    (∀ id : Str, idValidate id = .ok () ↔
      ((¬ id.any (fun c => c.toNat < 32) = true) ∧
        ∃ scheme rest, splitSchemeMarker id = some (scheme, rest) ∧
          rest.takeWhile (fun c => c != '/') ≠ [] ∧
          '.' ∈ rest.takeWhile (fun c => c != '/') ∧
          rest.dropWhile (fun c => c != '/') ≠ [] ∧
          (scheme = "http".toList ∨ scheme = "https".toList))) ∧
      idValidate ("https://invopop.com/schema/user".toList) = .ok () ∧
      idValidate ("https://encoding/json".toList) =
        .error ("hostname does not look valid".toList) ∧
      idValidate ("time".toList) = .error ("missing hostname".toList) ∧
      idValidate ("http://invopop.com".toList) =
        .error ("path is expected".toList) ∧
      idValidate ("foor://invopop.com/schema/user".toList) =
        .error ("unexpected schema".toList) ∧
      idValidate ("invopop.com\n/test".toList) =
        .error ("invalid URL: control character".toList) := by
  refine ⟨?_, rfl, rfl, rfl, rfl, rfl, rfl⟩
  intro id
  unfold idValidate
  by_cases hctrl : id.any (fun c => c.toNat < 32)
  · rw [if_pos hctrl]
    constructor
    · intro h
      cases h
    · rintro ⟨hc, _⟩
      exact absurd hctrl hc
  · rw [if_neg hctrl]
    cases hsplit : splitSchemeMarker id with
    | none =>
      constructor
      · intro h
        cases h
      · rintro ⟨_, s, r, hsr, _⟩
        cases hsr
    | some pr =>
      obtain ⟨scheme, rest⟩ := pr
      simp only
      constructor
      · intro hok
        by_cases hh : List.takeWhile (fun c => c != '/') rest = []
        · rw [if_pos hh] at hok
          cases hok
        · rw [if_neg hh] at hok
          by_cases hd : '.' ∈ List.takeWhile (fun c => c != '/') rest
          · rw [if_neg (not_not_intro hd)] at hok
            by_cases hp : List.dropWhile (fun c => c != '/') rest = []
            · rw [if_pos hp] at hok
              cases hok
            · rw [if_neg hp] at hok
              by_cases hs : scheme = "http".toList ∨ scheme = "https".toList
              · exact ⟨hctrl, scheme, rest, rfl, hh, hd, hp, hs⟩
              · rw [if_neg hs] at hok
                cases hok
          · rw [if_pos hd] at hok
            cases hok
      · rintro ⟨_, s, r, hsr, hhost, hdot, hpath, hscheme⟩
        have hs : scheme = s ∧ rest = r := by
          simpa using hsr
        obtain ⟨rfl, rfl⟩ := hs
        rw [if_neg hhost, if_neg (not_not_intro hdot), if_neg hpath,
          if_pos hscheme]

/-- C7 witness: the equivalence applied to the valid `TestIDValidation`
identifier. -/
theorem idValidate_ok_iff_witness :
    idValidate ("https://invopop.com/schema/user".toList) = .ok () :=
  (idValidate_ok_iff.1 ("https://invopop.com/schema/user".toList)).mpr
    ⟨by decide, "https".toList, "invopop.com/schema/user".toList,
      by decide, by decide, by decide, by decide, Or.inr rfl⟩

/-! ### Comment extraction (comment_extractor.go) -/

mutual
/-- Go AST type expressions as traversed by `handleType`: struct, array,
map, and pointer types, and an opaque remainder. -/
inductive AstExpr where
  | structT : List AstField → AstExpr
  | arrayT : AstExpr → AstExpr
  | mapT : AstExpr → AstExpr → AstExpr
  | starT : AstExpr → AstExpr
  | otherT : AstExpr
/-- One struct field of the Go AST: its names, the text of the doc
comment above it, the text of the trailing same-line comment, and its
type expression. -/
inductive AstField where
  | mk : List Str → Str → Str → AstExpr → AstField
end

/-- The comment dictionary built by the extractor, a Go map from
dot-joined breadcrumb paths to comment text. -/
abbrev CommentMap := Str → Option Str

/-- Go map assignment `comments[k] = v`. -/
def insertComment (m : CommentMap) (k : Str) (v : Str) : CommentMap :=
  fun q => if q = k then some v else m q

/-- ASCII whitespace, for `strings.TrimSpace`. -/
def isSpaceChar (c : Char) : Bool :=
  c = ' ' || c = '\t' || c = '\n' || c = '\r'

/-- `strings.TrimSpace` over the model's character lists. -/
def trimSpace (s : Str) : Str :=
  ((s.dropWhile isSpaceChar).reverse.dropWhile isSpaceChar).reverse

/-- `ast.IsExported`: the first character is upper-case. -/
def isExported (n : Str) : Bool :=
  match n.head? with
  | some c => c.isUpper
  | none => false

/-- `breadcrumb.String()`: components joined with a dot
(`strings.Join(b, ".")`). -/
def joinDot : List Str → Str
  | [] => []
  | x :: xs => x ++ xs.flatMap (fun y => '.' :: y)

mutual
/-- `handleType` (comment_extractor.go): walk a type expression, storing
one comment entry per exported field name under its dot-joined breadcrumb
— the doc comment above the field, or, only when that is empty, the
trailing same-line comment — then recurse into the field's type. -/
def handleType (e : AstExpr) (b : List Str) (m : CommentMap) : CommentMap :=
  match e with
  | .structT fields => handleFields fields b m
  | .arrayT el => handleType el (b ++ ["[]".toList]) m
  | .mapT k v =>
    handleType v (b ++ ["[value]".toList]) (handleType k (b ++ ["[key]".toList]) m)
  | .starT x => handleType x b m
  | .otherT => m
/-- Iterate `handleType`'s field loop. -/
def handleFields (fields : List AstField) (b : List Str) (m : CommentMap) :
    CommentMap :=
  match fields with
  | [] => m
  | .mk ns d cm t :: fs => handleFields fs b (handleNames t d cm ns b m)
/-- Iterate `handleType`'s name loop within one field. -/
def handleNames (t : AstExpr) (d cm : Str) (ns : List Str) (b : List Str)
    (m : CommentMap) : CommentMap :=
  match ns with
  | [] => m
  | n :: rest =>
    handleNames t d cm rest b
      (if isExported n then
        handleType t (b ++ [n])
          (insertComment m (joinDot (b ++ [n]))
            (trimSpace (if d = [] then cm else d)))
      else m)
end

/-- A struct field with a single name and a scalar (non-composite) type. -/
def mkScalarField (n d cm : Str) : AstField := .mk [n] d cm .otherT

/-- Build the field list of a struct of scalar fields from
(name, doc, line-comment) triples. -/
def scalarFields (L : List (Str × Str × Str)) : List AstField :=
  L.map (fun x => mkScalarField x.1 x.2.1 x.2.2)

/-- The comment text stored for a field: the doc comment, or the trailing
line comment only when the doc comment is empty, trimmed. -/
def chosenComment (d cm : Str) : Str := trimSpace (if d = [] then cm else d)

theorem joinDot_inj_at (b : List Str) (n1 n2 : Str)
    (h : joinDot (b ++ [n1]) = joinDot (b ++ [n2])) : n1 = n2 := by
  cases b with
  | nil => simpa [joinDot] using h
  | cons x xs =>
    simp only [joinDot, List.cons_append, List.flatMap_append] at h
    have h1 := List.append_cancel_left h
    have h2 := List.append_cancel_left h1
    simpa using h2

theorem handleFields_scalar_cons (n d cm : Str) (L : List (Str × Str × Str))
    (b : List Str) (m : CommentMap) (hn : isExported n = true) :
    handleType (.structT (scalarFields ((n, d, cm) :: L))) b m =
      handleType (.structT (scalarFields L)) b
        (insertComment m (joinDot (b ++ [n])) (chosenComment d cm)) := by
  simp only [scalarFields, List.map_cons, mkScalarField, chosenComment,
    handleType, handleFields, handleNames, if_pos hn]

/-! ### Claim C9: field comment extraction -/

/-- C9: for a struct whose fields are exported, scalar-typed, and have
pairwise-distinct names, `handleType` stores exactly one comment entry per
field under its dot-joined breadcrumb — the doc comment, with the
trailing same-line comment used only when the doc comment is empty — and
leaves every other key of the dictionary unchanged. -/
theorem handleType_scalar_struct (b : List Str) (m : CommentMap)
    (L : List (Str × Str × Str))
    (hexp : ∀ x ∈ L, isExported x.1 = true)
    (hdist : (L.map (fun x => x.1)).Nodup) :
    (∀ x ∈ L,
      handleType (.structT (scalarFields L)) b m (joinDot (b ++ [x.1])) =
        some (chosenComment x.2.1 x.2.2)) ∧
    (∀ k, (∀ x ∈ L, k ≠ joinDot (b ++ [x.1])) →
      handleType (.structT (scalarFields L)) b m k = m k) := by
  revert hexp hdist
  induction L generalizing m with
  | nil =>
    intro _ _
    constructor
    · intro x hx
      cases hx
    · intro k _
      simp [scalarFields, handleType, handleFields]
  | cons hd tl ih =>
    intro hexp hdist
    obtain ⟨n, d, cm⟩ := hd
    have hn : isExported n = true := hexp _ (List.mem_cons_self _ _)
    have hstep := handleFields_scalar_cons n d cm tl b m hn
    have hexp2 : ∀ x ∈ tl, isExported x.1 = true :=
      fun x hx => hexp x (List.mem_cons_of_mem _ hx)
    have hpair : (∀ y ∈ tl, y.1 ≠ n) ∧ (tl.map (fun x => x.1)).Nodup := by
      rw [List.map_cons, List.nodup_cons] at hdist
      refine ⟨?_, hdist.2⟩
      intro y hy heq
      exact hdist.1 (heq ▸ List.mem_map.mpr ⟨y, hy, rfl⟩)
    obtain ⟨ih1, ih2⟩ :=
      ih (m := insertComment m (joinDot (b ++ [n])) (chosenComment d cm))
        hexp2 hpair.2
    constructor
    · intro x hx
      rcases List.mem_cons.mp hx with rfl | hx2
      · rw [hstep]
        have hkeys : ∀ y ∈ tl, joinDot (b ++ [n]) ≠ joinDot (b ++ [y.1]) := by
          intro y hy heq
          exact hpair.1 y hy (joinDot_inj_at b n y.1 heq).symm
        rw [ih2 _ hkeys]
        simp [insertComment]
      · rw [hstep]
        exact ih1 x hx2
    · intro k hk
      rw [hstep, ih2 k (fun x hx => hk x (List.mem_cons_of_mem _ hx))]
      have hkn : k ≠ joinDot (b ++ [n]) := hk (n, d, cm) (List.mem_cons_self _ _)
      simp [insertComment, if_neg hkn]

/-- C9 witness: the theorem applied to the `Plant` struct of
src/unnamed/part_002: `Variant` has no doc comment so its trailing
comment is used; `Multicellular` has a doc comment so its trailing
comment is ignored. -/
theorem handleType_scalar_struct_witness :
    (∀ x ∈ [(("Variant".toList : Str), ([] : Str), "This comment will be used".toList),
        ("Multicellular".toList, "Multicellular is true if the plant is multicellular\n".toList,
          "This comment will be ignored".toList)], isExported x.1 = true) ∧
      handleType
          (.structT (scalarFields
            [("Variant".toList, [], "This comment will be used".toList),
              ("Multicellular".toList,
                "Multicellular is true if the plant is multicellular\n".toList,
                "This comment will be ignored".toList)]))
          ["Plant".toList] (fun _ => none)
          (joinDot (["Plant".toList] ++ ["Variant".toList])) =
        some ("This comment will be used".toList) ∧
      handleType
          (.structT (scalarFields
            [("Variant".toList, [], "This comment will be used".toList),
              ("Multicellular".toList,
                "Multicellular is true if the plant is multicellular\n".toList,
                "This comment will be ignored".toList)]))
          ["Plant".toList] (fun _ => none)
          (joinDot (["Plant".toList] ++ ["Multicellular".toList])) =
        some ("Multicellular is true if the plant is multicellular".toList) := by
  refine ⟨by decide, ?_, ?_⟩
  · exact ((handleType_scalar_struct ["Plant".toList] (fun _ => none)
      [("Variant".toList, [], "This comment will be used".toList),
        ("Multicellular".toList,
          "Multicellular is true if the plant is multicellular\n".toList,
          "This comment will be ignored".toList)]
      (by decide) (by decide)).1
      ("Variant".toList, [], "This comment will be used".toList)
      (by decide)).trans (by decide)
  · exact ((handleType_scalar_struct ["Plant".toList] (fun _ => none)
      [("Variant".toList, [], "This comment will be used".toList),
        ("Multicellular".toList,
          "Multicellular is true if the plant is multicellular\n".toList,
          "This comment will be ignored".toList)]
      (by decide) (by decide)).1
      ("Multicellular".toList,
        "Multicellular is true if the plant is multicellular\n".toList,
        "This comment will be ignored".toList)
      (by decide)).trans (by decide)

/-! ### Schema reflection walker (reflect.go — modelled) -/

/-- Modelled from the spec: the type walker of reflect.go is not among
the extracted sources. A type descriptor is a scalar kind, a sequence, or
a reference to a named struct-like type of a finite environment. -/
inductive GoType where
  | prim : String → GoType
  | arr : GoType → GoType
  | named : Nat → GoType
deriving DecidableEq

/-- The environment of named struct-like types: entry `i` lists the field
types of named type `i`. -/
abbrev TypeEnv := List (List GoType)

/-- Schema nodes produced by the walker: scalar, array, `$ref` to a named
definition, or object with child schemas. -/
inductive SchemaN where
  | prim : String → SchemaN
  | arr : SchemaN → SchemaN
  | ref : Nat → SchemaN
  | obj : List SchemaN → SchemaN

/-- Resolution status of a named type during one top-level call:
untouched, being resolved on the current recursion path, or resolved with
its populated definition. -/
inductive TStatus where
  | unvisited
  | inProgress
  | done : SchemaN → TStatus

/-- The walker's shared state: one status per named type, the definitions
table being the `done` entries. -/
abbrev WState := List TStatus

mutual
/-- Named references occurring in a schema node. -/
def refsOf : SchemaN → List Nat
  | .prim _ => []
  | .arr s => refsOf s
  | .ref i => [i]
  | .obj ss => refsL ss
/-- Named references occurring in a list of schema nodes. -/
def refsL : List SchemaN → List Nat
  | [] => []
  | s :: ss => refsOf s ++ refsL ss
end

/-- Status is `unvisited`. -/
def isUnvisited : TStatus → Bool
  | .unvisited => true
  | _ => false

/-- Number of still-unvisited named types. -/
def unvisitedCount (st : WState) : Nat := st.countP isUnvisited

/-- Index `j` is on the recursion path or already defined. -/
def markedB (st : WState) (j : Nat) : Bool :=
  match st.get? j with
  | some .inProgress => true
  | some (.done _) => true
  | _ => false

/-- Structural size of a type descriptor. -/
def tsize : GoType → Nat
  | .prim _ => 1
  | .arr e => 1 + tsize e
  | .named _ => 1

/-- Structural size of a field list. -/
def lsize : List GoType → Nat
  | [] => 1
  | t :: ts => 1 + tsize t + lsize ts

/-- Largest field-list size of the environment. -/
def maxFieldSize : TypeEnv → Nat
  | [] => 0
  | fs :: rest => max (lsize fs) (maxFieldSize rest)

/-- All named references of a type stay below `n`. -/
def typeClosed (n : Nat) : GoType → Bool
  | .prim _ => true
  | .arr e => typeClosed n e
  | .named i => decide (i < n)

/-- All named references of a field list stay below `n`. -/
def fieldsClosed (n : Nat) : List GoType → Bool
  | [] => true
  | t :: ts => typeClosed n t && fieldsClosed n ts

/-- The environment references only its own entries. -/
def envClosed (env : TypeEnv) : Bool :=
  env.all (fun fs => fieldsClosed env.length fs)

mutual
/-- Modelled from the spec: one step-bounded resolution pass of the type
walker with the reference manager's policy — a named type already being
resolved on the current path or already resolved yields a `$ref`; an
unvisited named type is marked in-progress, its fields are walked, and
its definition is filled in before the `$ref` is returned. -/
def walkT : Nat → TypeEnv → GoType → WState → Option (SchemaN × WState)
  | 0, _, _, _ => none
  | f + 1, env, t, st =>
    match t with
    | .prim k => some (.prim k, st)
    | .arr e =>
      match walkT f env e st with
      | none => none
      | some (s, st2) => some (.arr s, st2)
    | .named i =>
      match st.get? i with
      | some .unvisited =>
        match walkFields f env (env.getD i []) (st.set i .inProgress) with
        | none => none
        | some (ss, st2) => some (.ref i, st2.set i (.done (.obj ss)))
      | _ => some (.ref i, st)
/-- Walk the field types of one struct in order, threading the state. -/
def walkFields : Nat → TypeEnv → List GoType → WState → Option (List SchemaN × WState)
  | 0, _, _, _ => none
  | _ + 1, _, [], st => some ([], st)
  | f + 1, env, t :: ts, st =>
    match walkT f env t st with
    | none => none
    | some (s, st2) =>
      match walkFields f env ts st2 with
      | none => none
      | some (ss, st3) => some (s :: ss, st3)
end

/-- Fuel that always suffices for a top-level call. -/
def fuelBound (env : TypeEnv) (root : GoType) : Nat :=
  (maxFieldSize env + 1) * (env.length + 1) + tsize root

/-- The fresh all-unvisited state a top-level call starts from. -/
def initState (env : TypeEnv) : WState :=
  List.replicate env.length .unvisited

/-- A top-level reflect call: walk the root from a fresh state with the
sufficient fuel. -/
def topReflect (env : TypeEnv) (root : GoType) : Option (SchemaN × WState) :=
  walkT (fuelBound env root) env root (initState env)

/-- Entry-to-exit state evolution of one walker call: lengths agree,
in-progress and done entries are preserved, no new in-progress entries
appear, and unvisited entries never reappear. -/
def StMono (st st' : WState) : Prop :=
  st'.length = st.length ∧
  (∀ i, st.get? i = some .inProgress → st'.get? i = some .inProgress) ∧
  (∀ i s, st.get? i = some (.done s) → st'.get? i = some (.done s)) ∧
  (∀ i, st'.get? i = some .inProgress → st.get? i = some .inProgress) ∧
  (∀ i, st'.get? i = some .unvisited → st.get? i = some .unvisited)

theorem stMono_refl (st : WState) : StMono st st :=
  ⟨rfl, fun _ h => h, fun _ _ h => h, fun _ h => h, fun _ h => h⟩

theorem stMono_trans {a b c : WState} (h1 : StMono a b) (h2 : StMono b c) :
    StMono a c :=
  ⟨h2.1.trans h1.1,
    fun i h => h2.2.1 i (h1.2.1 i h),
    fun i s h => h2.2.2.1 i s (h1.2.2.1 i s h),
    fun i h => h1.2.2.2.1 i (h2.2.2.2.1 i h),
    fun i h => h1.2.2.2.2 i (h2.2.2.2.2 i h)⟩

theorem lt_of_get?_some {st : WState} {i : Nat} {x : TStatus}
    (h : st.get? i = some x) : i < st.length :=
  List.get?_eq_some.mp h |>.1

theorem walk_mono : ∀ f : Nat,
    (∀ env t st s st', walkT f env t st = some (s, st') → StMono st st') ∧
    (∀ env l st ss st', walkFields f env l st = some (ss, st') → StMono st st') := by
  intro f
  induction f with
  | zero =>
    constructor
    · intro env t st s st' h
      cases h
    · intro env l st ss st' h
      cases h
  | succ f ih =>
    obtain ⟨ihT, ihF⟩ := ih
    constructor
    · intro env t st s st' h
      cases t with
      | prim k =>
        simp only [walkT, Option.some.injEq, Prod.mk.injEq] at h
        rw [← h.2]
        exact stMono_refl st
      | arr e =>
        simp only [walkT] at h
        cases hw : walkT f env e st with
        | none =>
          rw [hw] at h
          cases h
        | some pr =>
          obtain ⟨s2, st2⟩ := pr
          rw [hw] at h
          simp only [Option.some.injEq, Prod.mk.injEq] at h
          rw [← h.2]
          exact ihT env e st s2 st2 hw
      | named i =>
        simp only [walkT] at h
        cases hstat : st.get? i with
        | none =>
          rw [hstat] at h
          simp only [Option.some.injEq, Prod.mk.injEq] at h
          rw [← h.2]
          exact stMono_refl st
        | some ts =>
          cases ts with
          | inProgress =>
            rw [hstat] at h
            simp only [Option.some.injEq, Prod.mk.injEq] at h
            rw [← h.2]
            exact stMono_refl st
          | done sc =>
            rw [hstat] at h
            simp only [Option.some.injEq, Prod.mk.injEq] at h
            rw [← h.2]
            exact stMono_refl st
          | unvisited =>
            rw [hstat] at h
            cases hw : walkFields f env (env.getD i []) (st.set i .inProgress) with
            | none =>
              rw [hw] at h
              cases h
            | some pr =>
              obtain ⟨ss, st2⟩ := pr
              rw [hw] at h
              simp only [Option.some.injEq, Prod.mk.injEq] at h
              have hmono := ihF env (env.getD i []) (st.set i .inProgress) ss st2 hw
              have hi : i < st.length := lt_of_get?_some hstat
              have hlen1 : (st.set i TStatus.inProgress).length = st.length :=
                List.length_set ..
              have hlen2 : st2.length = st.length := hmono.1.trans hlen1
              have hi2 : i < st2.length := hlen2 ▸ hi
              rw [← h.2]
              refine ⟨?_, ?_, ?_, ?_, ?_⟩
              · rw [List.length_set, hlen2]
              · intro j hj
                have hji : j ≠ i := by
                  intro hcc
                  rw [hcc, hstat] at hj
                  cases hj
                rw [List.get?_set_ne _ _ (fun hcc => hji hcc.symm)]
                refine hmono.2.1 j ?_
                rw [List.get?_set_ne _ _ (fun hcc => hji hcc.symm)]
                exact hj
              · intro j s0 hj
                have hji : j ≠ i := by
                  intro hcc
                  rw [hcc, hstat] at hj
                  cases hj
                rw [List.get?_set_ne _ _ (fun hcc => hji hcc.symm)]
                refine hmono.2.2.1 j s0 ?_
                rw [List.get?_set_ne _ _ (fun hcc => hji hcc.symm)]
                exact hj
              · intro j hj
                by_cases hji : j = i
                · rw [hji, List.get?_set_eq_of_lt _ hi2] at hj
                  cases hj
                · rw [List.get?_set_ne _ _ (fun hcc => hji hcc.symm)] at hj
                  have := hmono.2.2.2.1 j hj
                  rw [List.get?_set_ne _ _ (fun hcc => hji hcc.symm)] at this
                  exact this
              · intro j hj
                by_cases hji : j = i
                · rw [hji, List.get?_set_eq_of_lt _ hi2] at hj
                  cases hj
                · rw [List.get?_set_ne _ _ (fun hcc => hji hcc.symm)] at hj
                  have := hmono.2.2.2.2 j hj
                  rw [List.get?_set_ne _ _ (fun hcc => hji hcc.symm)] at this
                  exact this
    · intro env l st ss st' h
      cases l with
      | nil =>
        simp only [walkFields, Option.some.injEq, Prod.mk.injEq] at h
        rw [← h.2]
        exact stMono_refl st
      | cons t ts =>
        simp only [walkFields] at h
        cases hw : walkT f env t st with
        | none =>
          rw [hw] at h
          cases h
        | some pr =>
          obtain ⟨s2, st2⟩ := pr
          rw [hw] at h
          have h2 : (match walkFields f env ts st2 with
            | none => none
            | some (ss, st3) => some (s2 :: ss, st3)) = some (ss, st') := h
          cases hw2 : walkFields f env ts st2 with
          | none =>
            rw [hw2] at h2
            cases h2
          | some pr2 =>
            obtain ⟨ss2, st3⟩ := pr2
            rw [hw2] at h2
            simp only [Option.some.injEq, Prod.mk.injEq] at h2
            rw [← h2.2]
            exact stMono_trans (ihT env t st s2 st2 hw) (ihF env ts st2 ss2 st3 hw2)

theorem isUnvisited_iff (a : TStatus) : isUnvisited a = true ↔ a = .unvisited := by
  cases a <;> simp [isUnvisited]

theorem unvisitedCount_set_not (st : WState) (i : Nat) (a : TStatus)
    (h : st.get? i = some .unvisited) (ha : isUnvisited a = false) :
    unvisitedCount (st.set i a) + 1 = unvisitedCount st := by
  induction st generalizing i with
  | nil => cases h
  | cons x xs ih =>
    cases i with
    | zero =>
      have hx : x = TStatus.unvisited := by
        simpa using h
      subst hx
      show (a :: xs).countP isUnvisited + 1 =
        (TStatus.unvisited :: xs).countP isUnvisited
      rw [List.countP_cons, List.countP_cons, ha]
      simp [isUnvisited]
    | succ j =>
      have h2 : xs.get? j = some .unvisited := h
      have := ih j h2
      simp only [unvisitedCount, List.set, List.countP_cons] at this ⊢
      omega

theorem unvisitedCount_le_of_pointwise (st st' : WState)
    (hlen : st'.length = st.length)
    (hpt : ∀ i, st'.get? i = some .unvisited → st.get? i = some .unvisited) :
    unvisitedCount st' ≤ unvisitedCount st := by
  induction st generalizing st' with
  | nil =>
    have hnil : st' = [] := List.length_eq_zero.mp (by simpa using hlen)
    subst hnil
    exact Nat.le_refl _
  | cons x xs ih =>
    cases st' with
    | nil =>
      simp [unvisitedCount]
    | cons y ys =>
      have hlen2 : ys.length = xs.length := by simpa using hlen
      have hpts : ∀ i, ys.get? i = some .unvisited → xs.get? i = some .unvisited := by
        intro i hi
        exact hpt (i + 1) hi
      have hih := ih ys hlen2 hpts
      simp only [unvisitedCount, List.countP_cons] at hih ⊢
      by_cases hy : isUnvisited y = true
      · have hy2 := (isUnvisited_iff y).mp hy
        subst hy2
        have hx : x = TStatus.unvisited := by
          have h0 := hpt 0 rfl
          simpa using h0
        subst hx
        have hone : (if isUnvisited TStatus.unvisited = true then 1 else 0) = 1 := rfl
        rw [hone]
        omega
      · have hy0 : (if isUnvisited y = true then 1 else 0) = 0 := by
          simp [hy]
        rw [hy0]
        by_cases hx : isUnvisited x = true
        · rw [if_pos hx]
          omega
        · rw [if_neg hx]
          omega

theorem tsize_pos (t : GoType) : 1 ≤ tsize t := by
  cases t with
  | prim k => exact Nat.le_refl 1
  | arr e => simp [tsize]
  | named i => exact Nat.le_refl 1

theorem lsize_pos (l : List GoType) : 1 ≤ lsize l := by
  cases l with
  | nil => exact Nat.le_refl 1
  | cons t ts =>
    show 1 ≤ 1 + tsize t + lsize ts
    omega

theorem lsize_le_max (env : TypeEnv) (fs : List GoType) (h : fs ∈ env) :
    lsize fs ≤ maxFieldSize env := by
  induction env with
  | nil => cases h
  | cons g rest ih =>
    rcases List.mem_cons.mp h with rfl | h2
    · simp only [maxFieldSize]
      exact le_max_left _ _
    · simp only [maxFieldSize]
      exact le_trans (ih h2) (le_max_right _ _)

theorem getD_mem_of_lt (env : TypeEnv) (i : Nat) (h : i < env.length) :
    env.getD i [] ∈ env := by
  cases hg : env.get? i with
  | none =>
    have := List.get?_eq_none.mp hg
    omega
  | some fs =>
    have hg2 : env[i]? = some fs := by
      rw [← List.get?_eq_getElem?]
      exact hg
    have hd : env.getD i [] = fs := by
      simp [List.getD, hg2]
    rw [hd]
    exact List.get?_mem hg

theorem fieldsClosed_of_env (env : TypeEnv) (i : Nat)
    (h : envClosed env = true) (hi : i < env.length) :
    fieldsClosed env.length (env.getD i []) = true := by
  have hmem := getD_mem_of_lt env i hi
  unfold envClosed at h
  exact List.all_eq_true.mp h _ hmem

theorem walk_succeeds : ∀ f : Nat,
    (∀ env t st, envClosed env = true → typeClosed env.length t = true →
      st.length = env.length →
      (maxFieldSize env + 1) * unvisitedCount st + tsize t ≤ f →
      (walkT f env t st).isSome) ∧
    (∀ env l st, envClosed env = true → fieldsClosed env.length l = true →
      st.length = env.length →
      (maxFieldSize env + 1) * unvisitedCount st + lsize l ≤ f →
      (walkFields f env l st).isSome) := by
  intro f
  induction f with
  | zero =>
    constructor
    · intro env t st _ _ _ hle
      have h1 := tsize_pos t
      omega
    · intro env l st _ _ _ hle
      have h1 := lsize_pos l
      omega
  | succ f ih =>
    obtain ⟨ihT, ihF⟩ := ih
    constructor
    · intro env t st henv ht hlen hle
      cases t with
      | prim k => rfl
      | arr e =>
        have hrec : (walkT f env e st).isSome := by
          apply ihT env e st henv (by simpa [typeClosed] using ht) hlen
          have h1 : tsize (GoType.arr e) = 1 + tsize e := rfl
          omega
        simp only [walkT]
        cases hw : walkT f env e st with
        | none =>
          rw [hw] at hrec
          cases hrec
        | some pr =>
          obtain ⟨s2, st2⟩ := pr
          rfl
      | named i =>
        simp only [walkT]
        cases hstat : st.get? i with
        | none => rfl
        | some ts =>
          cases ts with
          | inProgress => rfl
          | done sc => rfl
          | unvisited =>
            have hi : i < st.length := lt_of_get?_some hstat
            have hi2 : i < env.length := hlen ▸ hi
            have hfc := fieldsClosed_of_env env i henv hi2
            have hlen1 : (st.set i TStatus.inProgress).length = env.length := by
              rw [List.length_set]
              exact hlen
            have hcnt : unvisitedCount (st.set i .inProgress) + 1 = unvisitedCount st :=
              unvisitedCount_set_not st i _ hstat rfl
            have hls : lsize (env.getD i []) ≤ maxFieldSize env :=
              lsize_le_max env _ (getD_mem_of_lt env i hi2)
            have hrec : (walkFields f env (env.getD i []) (st.set i .inProgress)).isSome := by
              apply ihF env _ _ henv hfc hlen1
              have hmul : (maxFieldSize env + 1) * unvisitedCount st =
                  (maxFieldSize env + 1) * unvisitedCount (st.set i .inProgress) +
                    (maxFieldSize env + 1) := by
                conv_lhs => rw [← hcnt]
                rw [Nat.mul_succ]
              have ht1 : tsize (GoType.named i) = 1 := rfl
              omega
            cases hw : walkFields f env (env.getD i []) (st.set i .inProgress) with
            | none =>
              rw [hw] at hrec
              cases hrec
            | some pr =>
              obtain ⟨ss, st2⟩ := pr
              rfl
    · intro env l st henv hfc hlen hle
      cases l with
      | nil => rfl
      | cons t ts =>
        have hcl : typeClosed env.length t = true ∧ fieldsClosed env.length ts = true := by
          have hfc2 := hfc
          simp only [fieldsClosed, Bool.and_eq_true] at hfc2
          exact hfc2
        have hrecT : (walkT f env t st).isSome := by
          apply ihT env t st henv hcl.1 hlen
          have h1 := lsize_pos ts
          have h2 : lsize (t :: ts) = 1 + tsize t + lsize ts := rfl
          omega
        simp only [walkFields]
        cases hw : walkT f env t st with
        | none =>
          rw [hw] at hrecT
          cases hrecT
        | some pr =>
          obtain ⟨s2, st2⟩ := pr
          have hmono := (walk_mono f).1 env t st s2 st2 hw
          have hlen2 : st2.length = env.length := hmono.1.trans hlen
          have hcnt2 : unvisitedCount st2 ≤ unvisitedCount st :=
            unvisitedCount_le_of_pointwise st st2 hmono.1 hmono.2.2.2.2
          have hrecF : (walkFields f env ts st2).isSome := by
            apply ihF env ts st2 henv hcl.2 hlen2
            have hml : (maxFieldSize env + 1) * unvisitedCount st2 ≤
                (maxFieldSize env + 1) * unvisitedCount st :=
              Nat.mul_le_mul_left _ hcnt2
            have h1 := tsize_pos t
            have h2 : lsize (t :: ts) = 1 + tsize t + lsize ts := rfl
            omega
          show (match walkFields f env ts st2 with
            | none => none
            | some (ss, st3) => some (s2 :: ss, st3)).isSome
          cases hw2 : walkFields f env ts st2 with
          | none =>
            rw [hw2] at hrecF
            cases hrecF
          | some pr2 =>
            obtain ⟨ss2, st3⟩ := pr2
            rfl

/-- Every definition stored in the table only references named types that
are on the recursion path or already defined. -/
def GoodS (st : WState) : Prop :=
  ∀ i sc, st.get? i = some (.done sc) → ∀ j ∈ refsOf sc, markedB st j = true

theorem markedB_mono {st st' : WState} (h : StMono st st') (j : Nat)
    (hm : markedB st j = true) : markedB st' j = true := by
  unfold markedB at hm ⊢
  cases hg : st.get? j with
  | none =>
    rw [hg] at hm
    cases hm
  | some ts =>
    cases ts with
    | unvisited =>
      rw [hg] at hm
      cases hm
    | inProgress =>
      rw [h.2.1 j hg]
    | done sc =>
      rw [h.2.2.1 j sc hg]

theorem markedB_set {st : WState} {i j : Nat} {a : TStatus}
    (hna : isUnvisited a = false) (h : markedB st j = true) :
    markedB (st.set i a) j = true := by
  by_cases hj : j = i
  · subst hj
    unfold markedB at h ⊢
    cases hg : st.get? j with
    | none =>
      rw [hg] at h
      cases h
    | some ts =>
      have hlt : j < st.length := lt_of_get?_some hg
      rw [List.get?_set_eq_of_lt _ hlt]
      cases a with
      | unvisited => cases hna
      | inProgress => rfl
      | done sc => rfl
  · unfold markedB at h ⊢
    rw [List.get?_set_ne _ _ (fun hcc => hj hcc.symm)]
    exact h

theorem walk_good : ∀ f : Nat,
    (∀ env t st s st', envClosed env = true → typeClosed env.length t = true →
      st.length = env.length → GoodS st →
      walkT f env t st = some (s, st') →
      GoodS st' ∧ ∀ j ∈ refsOf s, markedB st' j = true) ∧
    (∀ env l st ss st', envClosed env = true → fieldsClosed env.length l = true →
      st.length = env.length → GoodS st →
      walkFields f env l st = some (ss, st') →
      GoodS st' ∧ ∀ j ∈ refsL ss, markedB st' j = true) := by
  intro f
  induction f with
  | zero =>
    constructor
    · intro env t st s st' _ _ _ _ h
      cases h
    · intro env l st ss st' _ _ _ _ h
      cases h
  | succ f ih =>
    obtain ⟨ihT, ihF⟩ := ih
    constructor
    · intro env t st s st' henv ht hlen hgood h
      cases t with
      | prim k =>
        simp only [walkT, Option.some.injEq, Prod.mk.injEq] at h
        rw [← h.2, ← h.1]
        exact ⟨hgood, by intro j hj; cases hj⟩
      | arr e =>
        simp only [walkT] at h
        cases hw : walkT f env e st with
        | none =>
          rw [hw] at h
          cases h
        | some pr =>
          obtain ⟨s2, st2⟩ := pr
          rw [hw] at h
          simp only [Option.some.injEq, Prod.mk.injEq] at h
          obtain ⟨hgood2, hrefs2⟩ :=
            ihT env e st s2 st2 henv (by simpa [typeClosed] using ht) hlen hgood hw
          rw [← h.2, ← h.1]
          exact ⟨hgood2, by
            intro j hj
            exact hrefs2 j (by simpa [refsOf] using hj)⟩
      | named i =>
        have hi2 : i < env.length := by
          have := ht
          simp only [typeClosed, decide_eq_true_eq] at this
          exact this
        have hi : i < st.length := by omega
        simp only [walkT] at h
        cases hstat : st.get? i with
        | none =>
          have := List.get?_eq_none.mp hstat
          omega
        | some ts =>
          cases ts with
          | inProgress =>
            rw [hstat] at h
            simp only [Option.some.injEq, Prod.mk.injEq] at h
            rw [← h.2, ← h.1]
            refine ⟨hgood, ?_⟩
            intro j hj
            have hj2 : j = i := by simpa [refsOf] using hj
            subst hj2
            unfold markedB
            rw [hstat]
          | done sc =>
            rw [hstat] at h
            simp only [Option.some.injEq, Prod.mk.injEq] at h
            rw [← h.2, ← h.1]
            refine ⟨hgood, ?_⟩
            intro j hj
            have hj2 : j = i := by simpa [refsOf] using hj
            subst hj2
            unfold markedB
            rw [hstat]
          | unvisited =>
            rw [hstat] at h
            cases hw : walkFields f env (env.getD i []) (st.set i .inProgress) with
            | none =>
              rw [hw] at h
              cases h
            | some pr =>
              obtain ⟨ss, st2⟩ := pr
              rw [hw] at h
              simp only [Option.some.injEq, Prod.mk.injEq] at h
              have hlen1 : (st.set i TStatus.inProgress).length = env.length := by
                rw [List.length_set]
                exact hlen
              have hgood1 : GoodS (st.set i TStatus.inProgress) := by
                intro j sc hj
                have hji : j ≠ i := by
                  intro hcc
                  subst hcc
                  rw [List.get?_set_eq_of_lt _ hi] at hj
                  cases hj
                rw [List.get?_set_ne _ _ (fun hcc => hji hcc.symm)] at hj
                intro j2 hj2
                exact markedB_set rfl (hgood j sc hj j2 hj2)
              obtain ⟨hgood2, hrefs2⟩ :=
                ihF env (env.getD i []) (st.set i .inProgress) ss st2 henv
                  (fieldsClosed_of_env env i henv hi2) hlen1 hgood1 hw
              have hmonoF := (walk_mono f).2 env (env.getD i [])
                (st.set i .inProgress) ss st2 hw
              have hlen2 : st2.length = st.length := by
                rw [hmonoF.1, List.length_set]
              have hi3 : i < st2.length := by omega
              rw [← h.2, ← h.1]
              constructor
              · intro j sc hj
                by_cases hji : j = i
                · subst hji
                  rw [List.get?_set_eq_of_lt _ hi3] at hj
                  have hsc : sc = SchemaN.obj ss := by
                    injection hj with hj2
                    injection hj2 with hj3
                    exact hj3.symm
                  subst hsc
                  intro j2 hj2
                  refine markedB_set rfl ?_
                  exact hrefs2 j2 (by simpa [refsOf] using hj2)
                · rw [List.get?_set_ne _ _ (fun hcc => hji hcc.symm)] at hj
                  intro j2 hj2
                  exact markedB_set rfl (hgood2 j sc hj j2 hj2)
              · intro j hj
                have hj2 : j = i := by simpa [refsOf] using hj
                subst hj2
                unfold markedB
                rw [List.get?_set_eq_of_lt _ hi3]
    · intro env l st ss st' henv hfc hlen hgood h
      cases l with
      | nil =>
        simp only [walkFields, Option.some.injEq, Prod.mk.injEq] at h
        rw [← h.2, ← h.1]
        exact ⟨hgood, by intro j hj; cases hj⟩
      | cons t ts =>
        have hcl : typeClosed env.length t = true ∧ fieldsClosed env.length ts = true := by
          have hfc2 := hfc
          simp only [fieldsClosed, Bool.and_eq_true] at hfc2
          exact hfc2
        simp only [walkFields] at h
        cases hw : walkT f env t st with
        | none =>
          rw [hw] at h
          cases h
        | some pr =>
          obtain ⟨s2, st2⟩ := pr
          rw [hw] at h
          have h2 : (match walkFields f env ts st2 with
            | none => none
            | some (ss, st3) => some (s2 :: ss, st3)) = some (ss, st') := h
          cases hw2 : walkFields f env ts st2 with
          | none =>
            rw [hw2] at h2
            cases h2
          | some pr2 =>
            obtain ⟨ss2, st3⟩ := pr2
            rw [hw2] at h2
            simp only [Option.some.injEq, Prod.mk.injEq] at h2
            obtain ⟨hgoodT, hrefsT⟩ := ihT env t st s2 st2 henv hcl.1 hlen hgood hw
            have hmonoT := (walk_mono f).1 env t st s2 st2 hw
            have hlen2 : st2.length = env.length := hmonoT.1.trans hlen
            obtain ⟨hgoodF, hrefsF⟩ :=
              ihF env ts st2 ss2 st3 henv hcl.2 hlen2 hgoodT hw2
            have hmonoF := (walk_mono f).2 env ts st2 ss2 st3 hw2
            rw [← h2.2, ← h2.1]
            refine ⟨hgoodF, ?_⟩
            intro j hj
            have hj2 : j ∈ refsOf s2 ++ refsL ss2 := by simpa [refsL] using hj
            rcases List.mem_append.mp hj2 with hjl | hjr
            · exact markedB_mono hmonoF j (hrefsT j hjl)
            · exact hrefsF j hjr

theorem get?_replicate_unvisited (n i : Nat) (x : TStatus)
    (h : (List.replicate n TStatus.unvisited).get? i = some x) :
    x = TStatus.unvisited := by
  induction n generalizing i with
  | zero => cases h
  | succ n ih =>
    cases i with
    | zero => simpa using h.symm
    | succ j => exact ih j h

theorem unvisitedCount_replicate (n : Nat) :
    unvisitedCount (List.replicate n TStatus.unvisited) = n := by
  induction n with
  | zero => rfl
  | succ n ih =>
    show (TStatus.unvisited :: List.replicate n TStatus.unvisited).countP isUnvisited = n + 1
    rw [List.countP_cons]
    have h1 : (if isUnvisited TStatus.unvisited = true then 1 else 0) = 1 := rfl
    rw [h1]
    unfold unvisitedCount at ih
    omega

/-! ### Claim C5: cycle termination with populated definitions -/

/-- C5: for every closed type environment — cyclic chains of named types
included — and every root type, the top-level reflect call succeeds
within its finite fuel bound, and every `$ref` of the resulting schema,
and of every definition stored in the final table, points to a definition
that is populated (`done`, never a dangling placeholder) when the call
returns. -/
theorem reflect_terminates_populated (env : TypeEnv) (root : GoType)
    (henv : envClosed env = true) (hroot : typeClosed env.length root = true) :
    ∃ s st', topReflect env root = some (s, st') ∧
      (∀ j ∈ refsOf s, ∃ sc, st'.get? j = some (.done sc)) ∧
      (∀ i sc, st'.get? i = some (.done sc) →
        ∀ j ∈ refsOf sc, ∃ sc2, st'.get? j = some (.done sc2)) := by
  have hlen : (initState env).length = env.length := List.length_replicate ..
  have hcnt : unvisitedCount (initState env) = env.length :=
    unvisitedCount_replicate env.length
  have hfuel : (maxFieldSize env + 1) * unvisitedCount (initState env) + tsize root ≤
      fuelBound env root := by
    rw [hcnt]
    unfold fuelBound
    have h1 : (maxFieldSize env + 1) * env.length ≤
        (maxFieldSize env + 1) * (env.length + 1) :=
      Nat.mul_le_mul_left _ (by omega)
    omega
  have hsome := (walk_succeeds (fuelBound env root)).1 env root (initState env)
    henv hroot hlen hfuel
  cases hw : walkT (fuelBound env root) env root (initState env) with
  | none =>
    rw [hw] at hsome
    cases hsome
  | some pr =>
    obtain ⟨s, st'⟩ := pr
    have hgood0 : GoodS (initState env) := by
      intro i sc hi
      have := get?_replicate_unvisited env.length i _ hi
      cases this
    have hgood := (walk_good (fuelBound env root)).1 env root (initState env)
      s st' henv hroot hlen hgood0 hw
    have hmono := (walk_mono (fuelBound env root)).1 env root (initState env)
      s st' hw
    have hnoip : ∀ j, st'.get? j ≠ some TStatus.inProgress := by
      intro j hj
      have h2 := hmono.2.2.2.1 j hj
      have := get?_replicate_unvisited env.length j _ h2
      cases this
    have hdone : ∀ j, markedB st' j = true → ∃ sc, st'.get? j = some (.done sc) := by
      intro j hm
      unfold markedB at hm
      cases hg : st'.get? j with
      | none =>
        rw [hg] at hm
        cases hm
      | some ts =>
        cases ts with
        | unvisited =>
          rw [hg] at hm
          cases hm
        | inProgress => exact absurd hg (hnoip j)
        | done sc => exact ⟨sc, rfl⟩
    refine ⟨s, st', by unfold topReflect; exact hw, ?_, ?_⟩
    · intro j hj
      exact hdone j (hgood.2 j hj)
    · intro i sc hi j hj
      exact hdone j (hgood.1 i sc hi j hj)

/-- C5 witness: the theorem applied to the environment of the
self-referential `RecursiveExample` struct — a string field and a slice
of references back to the struct itself. -/
theorem reflect_terminates_populated_witness :
    (envClosed [[GoType.prim "string", GoType.arr (GoType.named 0)]] = true) ∧
      ∃ s st',
        topReflect [[GoType.prim "string", GoType.arr (GoType.named 0)]]
            (GoType.named 0) = some (s, st') ∧
          (∀ j ∈ refsOf s, ∃ sc, st'.get? j = some (.done sc)) ∧
          (∀ i sc, st'.get? i = some (.done sc) →
            ∀ j ∈ refsOf sc, ∃ sc2, st'.get? j = some (.done sc2)) :=
  ⟨by decide,
    reflect_terminates_populated [[GoType.prim "string", GoType.arr (GoType.named 0)]]
      (GoType.named 0) (by decide) (by decide)⟩

/-! ### Claim C6: reflection is deterministic and starts fresh -/

mutual
/-- Deterministic rendering of a schema node. -/
def serializeS : SchemaN → Str
  | .prim k => 'p' :: k.toList
  | .arr s => '[' :: serializeS s ++ [']']
  | .ref i => 'r' :: Nat.toDigits 10 i
  | .obj ss => '(' :: serializeL ss ++ [')']
/-- Deterministic rendering of a list of schema nodes. -/
def serializeL : List SchemaN → Str
  | [] => []
  | s :: ss => serializeS s ++ ',' :: serializeL ss
end

/-- Deterministic rendering of a reflect call's result, definitions table
included. -/
def serializeOut : Option (SchemaN × WState) → Str
  | none => "error".toList
  | some (s, st) =>
    serializeS s ++ '|' :: st.flatMap (fun ts =>
      match ts with
      | .done sc => serializeS sc ++ [';']
      | _ => ['?'])

/-- Modelled from the spec: `Reflector.Reflect` allocates a fresh, empty
definitions table for every top-level call; state carried over from an
earlier call is never consulted (cross-call caching is a separate,
explicit opt-in that this model omits). -/
def reflectCall (_carry : WState) (env : TypeEnv) (root : GoType) :
    Option (SchemaN × WState) :=
  topReflect env root

/-- C6: reflection is a deterministic function of the (type environment,
root type) pair: a top-level call starts from the fresh all-unvisited
state regardless of any state carried from an earlier call, so two calls
on the same input return identical results and byte-identical serialized
output. -/
theorem reflect_deterministic (c1 c2 : WState) (env : TypeEnv) (root : GoType) :
    reflectCall c1 env root = reflectCall c2 env root ∧
      serializeOut (reflectCall c1 env root) =
        serializeOut (reflectCall c2 env root) ∧
      reflectCall c1 env root =
        walkT (fuelBound env root) env root (initState env) :=
  ⟨rfl, rfl, rfl⟩

end JsonSchema
